import Mathlib

/-!
Verification of the CodeNebula static-dependency extractor.

The development shallowly embeds the core of the repository:
`src/lib/file-system.ts` (file-tree model), `src/lib/parser.ts`
(extraction engine and reference resolver) and the pure graph-assembly
part of `src/app/page.tsx` (`processGraph`).

JavaScript strings are modelled as `List Char`; the regex engine and
the asynchronous file-handle dereference are external to the embedded
fragment and appear as explicit function parameters (`exec`,
`contentOf`).  All other logic is translated line by line from the
source.
-/

namespace CodeNebula

/-- Strings of the embedded JavaScript fragment, as lists of characters. -/
abbrev Str := List Char

/-- Shorthand turning a Lean string literal into an embedded string. -/
def lit (s : String) : Str := s.toList

/-- JavaScript `String.prototype.split(c)`: splits on every occurrence of
`c`, keeping empty segments (`"a//b".split('/') = ["a","","b"]`,
`"".split('/') = [""]`). -/
def splitChar (c : Char) : Str → List Str
  | [] => [[]]
  | a :: rest =>
    let r := splitChar c rest
    if a = c then [] :: r
    else
      match r with
      | [] => [[a]]
      | h :: t => (a :: h) :: t

/-- JavaScript `Array.prototype.join(c)`. -/
def joinChar (c : Char) (l : List Str) : Str := List.intercalate [c] l

/-- File nodes of `file-system.ts`: files carry an optional opaque content
handle (of type `H`), directories carry children. -/
inductive FileNode (H : Type) where
  | file (name path : Str) (handle : Option H)
  | dir (name path : Str) (children : List (FileNode H))

/-- Name of a node. -/
def FileNode.name {H : Type} : FileNode H → Str
  | .file n _ _ => n
  | .dir n _ _ => n

/-- Path of a node. -/
def FileNode.path {H : Type} : FileNode H → Str
  | .file _ p _ => p
  | .dir _ p _ => p

/-- Content handle of a node (`undefined` on directories). -/
def FileNode.handle {H : Type} : FileNode H → Option H
  | .file _ _ h => h
  | .dir _ _ _ => none

/-- The `fileMap : Map<string, FileNode>` of `parseFiles`, as an
insertion-ordered association list. -/
abbrev FileMap (H : Type) := List (Str × FileNode H)

/-- Keys of the file map in insertion (iteration) order. -/
def mapKeys {H : Type} (m : FileMap H) : List Str := m.map (·.1)

/-- JavaScript `Map.prototype.has`. -/
def mapHas {H : Type} (m : FileMap H) (k : Str) : Bool := decide (k ∈ mapKeys m)

/-- JavaScript `Map.prototype.set`: overwrite in place if the key exists,
otherwise append. -/
def mapSet {H : Type} (m : FileMap H) (k : Str) (v : FileNode H) : FileMap H :=
  if mapHas m k then m.map (fun kv => if kv.1 = k then (k, v) else kv)
  else m ++ [(k, v)]

/-- The extension list tried for relative references
(`parser.ts`, `resolveImportPath`, step "Try extensions"). -/
def EXTENSIONS : List Str :=
  [lit ".ts", lit ".tsx", lit ".js", lit ".jsx", lit ".css", lit ".scss",
   lit ".py", lit ".dart", lit ".rs", lit ".go", lit ".java", lit ".cs",
   lit ".cpp", lit ".rb", lit ".php", lit ".isml", lit ".jsp", lit ".jspx",
   lit ".asp", lit ".aspx"]

/-- The extension list appended to extension-less non-relative references
(`parser.ts`, `resolveImportPath`, default suffix branch). -/
def extsDefault : List Str :=
  [lit ".js", lit ".ts", lit ".tsx", lit ".jsx", lit ".css", lit ".scss",
   lit ".h", lit ".hpp", lit ".cpp", lit ".cs"]

/-- The `for (const part of parts)` loop of the relative branch of
`resolveImportPath`: `.` is a no-op, `..` pops (JavaScript `pop` on an
empty array is a no-op), anything else is pushed. -/
def resolveRelStack : List Str → List Str → List Str
  | stack, [] => stack
  | stack, p :: rest =>
    if p = lit "." then resolveRelStack stack rest
    else if p = lit ".." then resolveRelStack stack.dropLast rest
    else resolveRelStack (stack ++ [p]) rest

/-- The lexically resolved path of the relative branch of
`resolveImportPath`: `currentDir = currentPath.split("/").slice(0,-1).join("/")`,
`stack = currentDir.split("/").filter(Boolean)`, then the part loop, then
`stack.join("/")`. -/
def relBase (currentPath importPath : Str) : Str :=
  let currentDir := joinChar '/' ((splitChar '/' currentPath).dropLast)
  let parts := splitChar '/' importPath
  let stack := (splitChar '/' currentDir).filter (fun s => s ≠ [])
  joinChar '/' (resolveRelStack stack parts)

/-- The "Try extensions" loop: first `resolvedPath + ext` present in the
file map wins. -/
def tryExts {H : Type} (m : FileMap H) (base : Str) : List Str → Option Str
  | [] => none
  | e :: rest =>
    if mapHas m (base ++ e) then some (base ++ e) else tryExts m base rest

/-- The "Try index files" loop: first `resolvedPath + "/index" + ext`
present in the file map wins. -/
def tryIndexFiles {H : Type} (m : FileMap H) (base : Str) : List Str → Option Str
  | [] => none
  | e :: rest =>
    if mapHas m (base ++ lit "/index" ++ e) then some (base ++ lit "/index" ++ e)
    else tryIndexFiles m base rest

/-- `importPath.replace(/\./g, "/")`. -/
def dotsToSlashes (s : Str) : Str := s.map (fun c => if c = '.' then '/' else c)

/-- The `potentialSuffixes` array built by the non-relative branch of
`resolveImportPath`: Java translates dots and tries `.java`; Python
translates dots and tries `.py` and `/__init__.py`; every other language
tries the raw reference and, when its last path segment has no dot, the
reference with each common extension appended. -/
def potentialSuffixes (importPath : Str) (lang : Option Str) : List Str :=
  if lang = some (lit "java") then
    [dotsToSlashes importPath ++ lit ".java"]
  else if lang = some (lit "py") then
    let basePath := dotsToSlashes importPath
    [basePath ++ lit ".py", basePath ++ lit "/__init__.py"]
  else
    importPath ::
      (if ((splitChar '/' importPath).getLastD []).contains '.' then []
       else extsDefault.map (fun e => importPath ++ e))

/-- The suffix test of `resolveImportPath`: `path.endsWith(suffix)` and the
character immediately before the matched suffix, if any, is `/`. -/
def suffixBoundaryMatch (path suffix : Str) : Bool :=
  if suffix.isSuffixOf path then
    let prefixIndex := path.length - suffix.length
    prefixIndex == 0 || path.get? (prefixIndex - 1) == some '/'
  else false

/-- The double loop over `potentialSuffixes` and `fileMap.keys()`: the
first key satisfying the suffix test for the first suffix that has any
match wins. -/
def findSuffixHit {H : Type} (m : FileMap H) : List Str → Option Str
  | [] => none
  | s :: rest =>
    match (mapKeys m).find? (fun p => suffixBoundaryMatch p s) with
    | some p => some p
    | none => findSuffixHit m rest

/-- `resolveImportPath` of `parser.ts`: relative references resolve
lexically then try exact / extension / index-file matches; non-relative
references resolve by boundary-respecting suffix search. -/
def resolveImportPath {H : Type} (currentPath importPath : Str)
    (fileMap : FileMap H) (lang : Option Str) : Option Str :=
  if importPath.head? = some '.' then
    let resolvedPath := relBase currentPath importPath
    if mapHas fileMap resolvedPath then some resolvedPath
    else
      match tryExts fileMap resolvedPath EXTENSIONS with
      | some r => some r
      | none => tryIndexFiles fileMap resolvedPath EXTENSIONS
  else
    findSuffixHit fileMap (potentialSuffixes importPath lang)

/-- One regex match as delivered by the engine: the two capture groups
(`match[1]`, `match[2]`), each possibly absent. -/
structure RMatch where
  g1 : Option Str
  g2 : Option Str
deriving DecidableEq

/-- A resolved dependency edge (`FileDependency` of `parser.ts`). -/
structure FileDependency where
  source : Str
  target : Str
deriving DecidableEq, Repr

/-- JavaScript truthiness of an optional string: present and non-empty. -/
def truthy : Option Str → Bool
  | some s => !s.isEmpty
  | none => false

/-- `const importPath = match[2] || match[1]; if (!importPath) continue`:
the later capture group wins when truthy, else the earlier one; an
untruthy result is skipped. -/
def chooseCapture (m : RMatch) : Option Str :=
  let ip := if truthy m.g2 then m.g2 else m.g1
  if truthy ip then ip else none

/-- `EXT_MAP` of `parser.ts`, mapping file extensions to pattern keys. -/
def EXT_MAP : List (Str × Str) :=
  [(lit "js", lit "js"), (lit "mjs", lit "js"), (lit "cjs", lit "js"),
   (lit "ts", lit "ts"), (lit "mts", lit "ts"),
   (lit "jsx", lit "jsx"),
   (lit "tsx", lit "tsx"),
   (lit "css", lit "css"),
   (lit "scss", lit "scss"), (lit "sass", lit "scss"),
   (lit "py", lit "py"),
   (lit "dart", lit "dart"),
   (lit "rs", lit "rs"),
   (lit "go", lit "go"),
   (lit "java", lit "java"),
   (lit "cs", lit "cs"),
   (lit "cpp", lit "cpp"), (lit "cc", lit "cpp"), (lit "cxx", lit "cpp"),
   (lit "c", lit "cpp"), (lit "h", lit "cpp"), (lit "hpp", lit "cpp"),
   (lit "rb", lit "rb"),
   (lit "php", lit "php"),
   (lit "isml", lit "isml"),
   (lit "jsp", lit "jsp"), (lit "jspx", lit "jsp"), (lit "jspf", lit "jsp"),
   (lit "asp", lit "asp"), (lit "aspx", lit "asp"), (lit "asa", lit "asp")]

/-- `EXT_MAP[ext]` lookup. -/
def lookupLang (ext : Str) : Option Str :=
  (EXT_MAP.find? (fun kv => kv.1 = ext)).map (·.2)

/-- `node.name.split(".").pop()?.toLowerCase()`. -/
def fileExt (name : Str) : Str :=
  ((splitChar '.' name).getLastD []).map Char.toLower

/-- `readFileContent` of `parser.ts`: a node without a handle reads as the
empty string; otherwise the handle is dereferenced by the external
content reader `contentOf`, which may fail. -/
def readFileContent {H : Type} (contentOf : H → Except Str Str)
    (node : FileNode H) : Except Str Str :=
  match node.handle with
  | none => .ok []
  | some h => contentOf h

mutual
/-- The `mapFiles` traversal of `parseFiles`, restricted to one node:
files are collected, directories contribute their children in order. -/
def flattenOne {H : Type} : FileNode H → List (FileNode H)
  | .file n p h => [.file n p h]
  | .dir _ _ cs => flattenList cs

/-- The `mapFiles` traversal of `parseFiles` over a list of nodes. -/
def flattenList {H : Type} : List (FileNode H) → List (FileNode H)
  | [] => []
  | n :: rest => flattenOne n ++ flattenList rest
end

/-- The file map built by `mapFiles`: every file leaf inserted in traversal
order. -/
def buildFileMap {H : Type} (files : List (FileNode H)) : FileMap H :=
  (flattenList files).foldl (fun m n => mapSet m n.path n) []

/-- The body of the match loop of `parseFiles`: select the capture, resolve
it, and emit an edge from the current file when resolution succeeds. -/
def matchToDep {H : Type} (fileMap : FileMap H) (srcPath lang : Str)
    (m : RMatch) : Option FileDependency :=
  match chooseCapture m with
  | none => none
  | some importPath =>
    match resolveImportPath srcPath importPath fileMap (some lang) with
    | some resolved => some ⟨srcPath, resolved⟩
    | none => none

/-- Processing of one file inside `parseFiles`: skip unknown extensions,
read the content (a read error is caught and yields no edges for this
file), run the language's patterns through the external regex engine
`exec`, and keep the resolved matches. -/
def parseOne {H : Type} (contentOf : H → Except Str Str)
    (exec : Str → Str → List RMatch) (fileMap : FileMap H)
    (node : FileNode H) : List FileDependency :=
  match lookupLang (fileExt node.name) with
  | none => []
  | some lang =>
    match readFileContent contentOf node with
    | .error _ => []
    | .ok content => (exec lang content).filterMap (matchToDep fileMap node.path lang)

/-- `parseFiles` of `parser.ts`: flatten the tree, build the file map, and
accumulate the edges of every file in flattened order. -/
def parseFiles {H : Type} (contentOf : H → Except Str Str)
    (exec : Str → Str → List RMatch) (files : List (FileNode H)) :
    List FileDependency :=
  let leaves := flattenList files
  let fileMap := buildFileMap files
  leaves.flatMap (fun n => parseOne contentOf exec fileMap n)

/-- A graph node as produced by `treeToGraphData` and decorated by
`processGraph` (`val` is the display size, `degree` the in-degree). -/
structure GraphNode where
  id : Str
  name : Str
  group : Str
  val : ℚ
  degree : ℕ
deriving DecidableEq

/-- A graph link as produced by `processGraph`. -/
structure GraphLink where
  source : Str
  target : Str
  width : ℚ
deriving DecidableEq

/-- The graph handed to the rendering layer. -/
structure Graph where
  nodes : List GraphNode
  links : List GraphLink
deriving DecidableEq

mutual
/-- The `traverse` helper of `treeToGraphData`: a file becomes a node with
`group = parentPath || 'root'` and default size 5; a directory contributes
its children with itself as parent. -/
def traverseOne {H : Type} (parent : Str) : FileNode H → List GraphNode
  | .file n p _ =>
    [{ id := p, name := n, group := if parent.isEmpty then lit "root" else parent,
       val := 5, degree := 0 }]
  | .dir _ p cs => traverseList p cs

/-- The `traverse` helper of `treeToGraphData` over a list of children. -/
def traverseList {H : Type} (parent : Str) : List (FileNode H) → List GraphNode
  | [] => []
  | n :: rest => traverseOne parent n ++ traverseList parent rest
end

/-- `treeToGraphData` of `file-system.ts` (its `links` are always empty, so
only the node list is returned). -/
def treeToGraphData {H : Type} (tree : List (FileNode H)) : List GraphNode :=
  traverseList (lit "root") tree

/-- Step 2 of `processGraph` in `page.tsx`: keep only dependencies whose
source and target are known node ids and give each surviving edge a
uniform width of 1. -/
def validLinks (nodeIds : List Str) (deps : List FileDependency) : List GraphLink :=
  (deps.filter (fun d => decide (d.source ∈ nodeIds) && decide (d.target ∈ nodeIds))).map
    (fun d => { source := d.source, target := d.target, width := 1 })

/-- One step of the in-degree fold:
`inDegree.set(link.target, (inDegree.get(link.target) || 0) + 1)`. -/
def bumpDegree (m : List (Str × ℕ)) (k : Str) : List (Str × ℕ) :=
  if (m.map (·.1)).contains k then
    m.map (fun kv => if kv.1 = k then (kv.1, kv.2 + 1) else kv)
  else m ++ [(k, 1)]

/-- Step 3 of `processGraph`: the in-degree map accumulated over the valid
links. -/
def inDegreeMap (links : List GraphLink) : List (Str × ℕ) :=
  links.foldl (fun m l => bumpDegree m l.target) []

/-- `inDegree.get(node.id) || 0`. -/
def degreeLookup (m : List (Str × ℕ)) (k : Str) : ℕ :=
  ((m.find? (fun kv => kv.1 = k)).map (·.2)).getD 0

/-- JavaScript `Math.min` on rationals. -/
def ratMin (a b : ℚ) : ℚ := if a ≤ b then a else b

/-- The sizing policy of `processGraph`:
`size = 4 + Math.min(20, degree * 1.5)`. -/
def nodeSize (degree : ℕ) : ℚ := 4 + ratMin 20 ((degree : ℚ) * (3 / 2))

/-- The per-node update of `processGraph`: look up the node's in-degree
and set its display size and `degree` field. -/
def decorate (degMap : List (Str × ℕ)) (n : GraphNode) : GraphNode :=
  let degree := degreeLookup degMap n.id
  { n with val := nodeSize degree, degree := degree }

/-- The pure core of `processGraph` in `page.tsx`: filter dangling raw
edges, compute in-degrees over the surviving links, and re-emit every
initial node with its degree-derived size. -/
def processGraph {H : Type} (tree : List (FileNode H))
    (deps : List FileDependency) : Graph :=
  let initialNodes := treeToGraphData tree
  let nodeIds := initialNodes.map (·.id)
  let links := validLinks nodeIds deps
  let degMap := inDegreeMap links
  let nodes := initialNodes.map (decorate degMap)
  { nodes := nodes, links := links }

/-- Example file map containing only `myfoo/bar.ts` (segment-boundary test). -/
def exMapMyfoo : FileMap Unit :=
  [(lit "myfoo/bar.ts", .file (lit "bar.ts") (lit "myfoo/bar.ts") none)]

/-- Example file map containing only `a/foo/bar.ts` (segment-boundary test). -/
def exMapAfoo : FileMap Unit :=
  [(lit "a/foo/bar.ts", .file (lit "bar.ts") (lit "a/foo/bar.ts") none)]

/-- Example file map with `utils/index.ts` but no `utils.ts`. -/
def exMapIndexOnly : FileMap Unit :=
  [(lit "utils/index.ts", .file (lit "index.ts") (lit "utils/index.ts") none),
   (lit "main.ts", .file (lit "main.ts") (lit "main.ts") none)]

/-- Example file map with both `utils.ts` and `utils/index.ts`. -/
def exMapBoth : FileMap Unit :=
  [(lit "utils.ts", .file (lit "utils.ts") (lit "utils.ts") none),
   (lit "utils/index.ts", .file (lit "index.ts") (lit "utils/index.ts") none)]

/-- Example file map whose only entry is a Java package-init file. -/
def exMapJavaInit : FileMap Unit :=
  [(lit "src/a/b/__init__.java",
    .file (lit "__init__.java") (lit "src/a/b/__init__.java") none)]

/-- Example file map whose only entry is a Python package-init file. -/
def exMapPyInit : FileMap Unit :=
  [(lit "src/pkg/mod/__init__.py",
    .file (lit "__init__.py") (lit "src/pkg/mod/__init__.py") none)]

/-- Example content reader for the read-failure scenario: handle 1 reads as
an import of `./t`, handle 2 fails, everything else reads empty. -/
def cofC6 : Nat → Except Str Str
  | 1 => .ok (lit "CA")
  | 2 => .error (lit "boom")
  | _ => .ok []

/-- Example regex engine for the read-failure scenario: content `CA` yields
one match capturing `./t`. -/
def exeC6 : Str → Str → List RMatch :=
  fun _ content => if content = lit "CA" then [⟨some (lit "./t"), none⟩] else []

/-- Example tree for the read-failure scenario: three `.ts` files, the
second of which is unreadable under `cofC6`. -/
def filesC6 : List (FileNode Nat) :=
  [.file (lit "a.ts") (lit "a.ts") (some 1),
   .file (lit "b.ts") (lit "b.ts") (some 2),
   .file (lit "t.ts") (lit "t.ts") (some 3)]

/-- Example tree for the deduplication scenario: three files under `src`. -/
def treeDup : List (FileNode Unit) :=
  [.dir (lit "src") (lit "src")
    [.file (lit "a.ts") (lit "src/a.ts") none,
     .file (lit "b.ts") (lit "src/b.ts") none,
     .file (lit "x.ts") (lit "src/x.ts") none]]

/-- Example raw edges for the deduplication scenario: two files each
reference `src/x.ts` twice, i.e. four raw matches. -/
def depsDup : List FileDependency :=
  [⟨lit "src/a.ts", lit "src/x.ts"⟩, ⟨lit "src/a.ts", lit "src/x.ts"⟩,
   ⟨lit "src/b.ts", lit "src/x.ts"⟩, ⟨lit "src/b.ts", lit "src/x.ts"⟩]

/-- The undecorated graph node of `src/x.ts` in the dedup scenario. -/
def xOrig : GraphNode :=
  { id := lit "src/x.ts", name := lit "x.ts", group := lit "src",
    val := 5, degree := 0 }

/-- The undecorated graph node of `src/a.ts` in the dedup scenario. -/
def aOrig : GraphNode :=
  { id := lit "src/a.ts", name := lit "a.ts", group := lit "src",
    val := 5, degree := 0 }

/-- The in-degree map of the dedup scenario's assembled graph. -/
def dupDegMap : List (Str × ℕ) :=
  inDegreeMap (processGraph treeDup depsDup).links

/-- The decorated node of `src/x.ts` in the dedup scenario's graph. -/
def xDup : GraphNode := decorate dupDegMap xOrig

/-- The decorated node of `src/a.ts` in the dedup scenario's graph. -/
def aDup : GraphNode := decorate dupDegMap aOrig

theorem mapHas_iff_mem {H : Type} (m : FileMap H) (k : Str) :
    mapHas m k = true ↔ k ∈ mapKeys m := by
  simp [mapHas]

theorem tryExts_mem_keys {H : Type} (m : FileMap H) (base : Str)
    (exts : List Str) (r : Str) (h : tryExts m base exts = some r) :
    r ∈ mapKeys m := by
  induction exts with
  | nil => simp [tryExts] at h
  | cons e rest ih =>
    rw [tryExts] at h
    by_cases hc : mapHas m (base ++ e) = true
    · rw [if_pos hc] at h
      exact (Option.some_inj.mp h) ▸ (mapHas_iff_mem m (base ++ e)).mp hc
    · rw [if_neg hc] at h
      exact ih h

theorem tryIndexFiles_mem_keys {H : Type} (m : FileMap H) (base : Str)
    (exts : List Str) (r : Str) (h : tryIndexFiles m base exts = some r) :
    r ∈ mapKeys m := by
  induction exts with
  | nil => simp [tryIndexFiles] at h
  | cons e rest ih =>
    rw [tryIndexFiles] at h
    by_cases hc : mapHas m (base ++ lit "/index" ++ e) = true
    · rw [if_pos hc] at h
      exact (Option.some_inj.mp h) ▸ (mapHas_iff_mem m _).mp hc
    · rw [if_neg hc] at h
      exact ih h

theorem findSuffixHit_mem_keys {H : Type} (m : FileMap H)
    (suffixes : List Str) (p : Str) (h : findSuffixHit m suffixes = some p) :
    p ∈ mapKeys m := by
  induction suffixes with
  | nil => simp [findSuffixHit] at h
  | cons s rest ih =>
    rw [findSuffixHit] at h
    cases hf : (mapKeys m).find? (fun q => suffixBoundaryMatch q s) with
    | none => rw [hf] at h; exact ih h
    | some q =>
      rw [hf] at h
      exact (Option.some_inj.mp h) ▸ List.mem_of_find?_eq_some hf

theorem resolveImportPath_mem_keys {H : Type} (cur ref : Str)
    (m : FileMap H) (lang : Option Str) (p : Str)
    (h : resolveImportPath cur ref m lang = some p) : p ∈ mapKeys m := by
  rw [resolveImportPath] at h
  by_cases hrel : ref.head? = some '.'
  · rw [if_pos hrel] at h
    by_cases hex : mapHas m (relBase cur ref) = true
    · rw [if_pos hex] at h
      exact (Option.some_inj.mp h) ▸ (mapHas_iff_mem m _).mp hex
    · rw [if_neg hex] at h
      cases ht : tryExts m (relBase cur ref) EXTENSIONS with
      | some r =>
        rw [ht] at h
        exact (Option.some_inj.mp h) ▸ tryExts_mem_keys m _ _ r ht
      | none =>
        rw [ht] at h
        exact tryIndexFiles_mem_keys m _ _ p h
  · rw [if_neg hrel] at h
    exact findSuffixHit_mem_keys m _ p h

theorem suffixBoundaryMatch_iff (path suffix : Str) :
    suffixBoundaryMatch path suffix = true ↔
      (suffix <:+ path ∧
       (path = suffix ∨ path.get? (path.length - suffix.length - 1) = some '/')) := by
  rw [suffixBoundaryMatch]
  by_cases hs : suffix.isSuffixOf path
  · have hsuf : suffix <:+ path := List.isSuffixOf_iff_suffix.mp hs
    rw [if_pos hs]
    simp only [Bool.or_eq_true, beq_iff_eq]
    constructor
    · rintro (h0 | hc)
      · refine ⟨hsuf, Or.inl ?_⟩
        have hle : suffix.length ≤ path.length := hsuf.length_le
        have : suffix.length = path.length := by omega
        exact (hsuf.eq_of_length this).symm
      · exact ⟨hsuf, Or.inr hc⟩
    · rintro ⟨-, (heq | hc)⟩
      · subst heq; simp
      · exact Or.inr hc
  · rw [if_neg hs]
    constructor
    · intro h
      exact absurd h (by decide)
    · rintro ⟨hsuf, -⟩
      exact absurd (List.isSuffixOf_iff_suffix.mpr hsuf) hs

theorem degreeLookup_cons_pos (a : Str × ℕ) (m : List (Str × ℕ)) (k : Str)
    (h : a.1 = k) : degreeLookup (a :: m) k = a.2 := by
  unfold degreeLookup
  rw [List.find?_cons_of_pos _ (by simpa using h)]
  rfl

theorem degreeLookup_cons_neg (a : Str × ℕ) (m : List (Str × ℕ)) (k : Str)
    (h : ¬ a.1 = k) : degreeLookup (a :: m) k = degreeLookup m k := by
  unfold degreeLookup
  rw [List.find?_cons_of_neg _ (by simpa using h)]

theorem degreeLookup_mapUpdate (m : List (Str × ℕ)) (t k : Str) :
    degreeLookup (m.map (fun kv => if kv.1 = t then (kv.1, kv.2 + 1) else kv)) k =
      degreeLookup m k + (if k = t ∧ k ∈ m.map (·.1) then 1 else 0) := by
  induction m with
  | nil => simp [degreeLookup]
  | cons a rest ih =>
    simp only [List.map_cons]
    by_cases ha : a.1 = k
    · by_cases hat : a.1 = t
      · have hk : k = t := by rw [← ha, hat]
        have hmem : k ∈ (a :: rest).map (·.1) :=
          List.mem_map.mpr ⟨a, List.mem_cons_self a rest, ha⟩
        rw [if_pos hat,
            degreeLookup_cons_pos (a.1, a.2 + 1) _ _ (by simpa using ha),
            degreeLookup_cons_pos a _ _ ha, if_pos ⟨hk, by simpa using hmem⟩]
      · have hk : ¬ k = t := fun hh => hat (by rw [ha, hh])
        rw [if_neg hat, degreeLookup_cons_pos a _ _ ha,
            degreeLookup_cons_pos a _ _ ha, if_neg (fun hc => hk hc.1)]
        omega
    · have hmemiff : (k ∈ ((a :: rest).map (·.1))) ↔ k ∈ rest.map (·.1) := by
        simp only [List.map_cons, List.mem_cons]
        exact or_iff_right (fun hh => ha hh.symm)
      have hkeyA : ¬ ((if a.1 = t then (a.1, a.2 + 1) else a).1 = k) := by
        by_cases hat : a.1 = t
        · rw [if_pos hat]; exact ha
        · rw [if_neg hat]; exact ha
      rw [degreeLookup_cons_neg _ _ _ hkeyA, degreeLookup_cons_neg _ _ _ ha, ih]
      by_cases hm : k = t ∧ k ∈ rest.map (·.1)
      · rw [if_pos hm, if_pos ⟨hm.1, by simpa using hmemiff.mpr hm.2⟩]
      · rw [if_neg hm, if_neg (fun hc => hm ⟨hc.1, hmemiff.mp (by simpa using hc.2)⟩)]

theorem degreeLookup_eq_zero_of_not_mem (m : List (Str × ℕ)) (k : Str)
    (h : k ∉ m.map (·.1)) : degreeLookup m k = 0 := by
  have hf : m.find? (fun kv => kv.1 = k) = none := by
    rw [List.find?_eq_none]
    intro x hx hpx
    exact h (List.mem_map.mpr ⟨x, hx, by simpa using hpx⟩)
  simp [degreeLookup, hf]

theorem degreeLookup_bumpDegree (m : List (Str × ℕ)) (t k : Str) :
    degreeLookup (bumpDegree m t) k =
      degreeLookup m k + if k = t then 1 else 0 := by
  rw [bumpDegree]
  by_cases hmem : t ∈ m.map (·.1)
  · rw [if_pos (by simpa using hmem)]
    rw [degreeLookup_mapUpdate]
    by_cases hk : k = t
    · simp [hk, hmem]
    · simp [hk]
  · rw [if_neg (by simpa using hmem)]
    simp only [degreeLookup, List.find?_append]
    by_cases hk : k = t
    · subst hk
      have hf : m.find? (fun kv => kv.1 = k) = none := by
        rw [List.find?_eq_none]
        intro x hx hpx
        exact hmem (List.mem_map.mpr ⟨x, hx, by simpa using hpx⟩)
      simp [hf, List.find?]
    · have hkt : ¬ (t = k) := fun hh => hk hh.symm
      cases hf : m.find? (fun kv => kv.1 = k) with
      | some x => simp [hf, hk]
      | none => simp [hf, List.find?, hk, hkt]

theorem degreeLookup_foldl_bump (links : List GraphLink) (m : List (Str × ℕ))
    (k : Str) :
    degreeLookup (links.foldl (fun acc l => bumpDegree acc l.target) m) k =
      degreeLookup m k + (links.filter (fun l => l.target = k)).length := by
  induction links generalizing m with
  | nil => simp
  | cons l rest ih =>
    simp only [List.foldl_cons, List.filter_cons]
    rw [ih, degreeLookup_bumpDegree]
    by_cases hk : k = l.target
    · simp [hk]
      omega
    · have : ¬ (l.target = k) := fun hh => hk hh.symm
      simp [hk, this]

theorem degreeLookup_inDegreeMap (links : List GraphLink) (k : Str) :
    degreeLookup (inDegreeMap links) k =
      (links.filter (fun l => l.target = k)).length := by
  rw [inDegreeMap, degreeLookup_foldl_bump]
  simp [degreeLookup]

theorem processGraph_links {H : Type} (tree : List (FileNode H))
    (deps : List FileDependency) :
    (processGraph tree deps).links =
      validLinks ((treeToGraphData tree).map (·.id)) deps := rfl

theorem processGraph_node_ids {H : Type} (tree : List (FileNode H))
    (deps : List FileDependency) :
    (processGraph tree deps).nodes.map (·.id) =
      (treeToGraphData tree).map (·.id) := by
  simp only [processGraph, List.map_map]
  rfl

theorem mem_processGraph_nodes {H : Type} {tree : List (FileNode H)}
    {deps : List FileDependency} {n : GraphNode}
    (h : n ∈ (processGraph tree deps).nodes) :
    n.val = nodeSize n.degree ∧
    n.degree =
      degreeLookup (inDegreeMap (processGraph tree deps).links) n.id := by
  simp only [processGraph] at h
  rcases List.mem_map.mp h with ⟨m, hm, rfl⟩
  exact ⟨rfl, rfl⟩

theorem ratMin_eq_min (a b : ℚ) : ratMin a b = min a b := by
  rw [ratMin, min_def]

theorem nodeSize_le_24 (d : ℕ) : nodeSize d ≤ 24 := by
  rw [nodeSize, ratMin_eq_min]
  have h : min 20 ((d : ℚ) * (3 / 2)) ≤ 20 := min_le_left _ _
  linarith

theorem nodeSize_mono {a b : ℕ} (h : b ≤ a) : nodeSize b ≤ nodeSize a := by
  rw [nodeSize, nodeSize, ratMin_eq_min, ratMin_eq_min]
  have hc : (b : ℚ) ≤ (a : ℚ) := by exact_mod_cast h
  have hm : (b : ℚ) * (3 / 2) ≤ (a : ℚ) * (3 / 2) := by linarith
  have := min_le_min (le_refl (20 : ℚ)) hm
  linarith

/-- Claim C2: for every non-relative reference, suffix-match resolution
succeeds exactly on a full path-segment boundary — a candidate suffix `S`
matches an indexed path `P` iff `P` ends with `S` and either `P = S` or
the character of `P` immediately preceding the matched suffix is `/`;
consequently a reference `foo/bar` never resolves to a path ending in
`myfoo/bar.<ext>` (while `a/foo/bar.ts` does resolve). -/
theorem C2_suffix_boundary :
    (∀ path suffix : Str, suffixBoundaryMatch path suffix = true ↔
      (suffix <:+ path ∧
       (path = suffix ∨
        path.get? (path.length - suffix.length - 1) = some '/'))) ∧
    resolveImportPath (lit "src/main.ts") (lit "foo/bar") exMapMyfoo
      (some (lit "ts")) = none ∧
    resolveImportPath (lit "src/main.ts") (lit "foo/bar") exMapAfoo
      (some (lit "ts")) = some (lit "a/foo/bar.ts") :=
  ⟨suffixBoundaryMatch_iff, by decide, by decide⟩

/-- Claim C3: a relative reference is resolved by joining the source's
directory with the reference (`.` a no-op, `..` popping one segment,
over-popping past the root silently discarded), then trying, in order,
the exact path, the path with each candidate extension, and the path with
`/index.<ext>`; the first hit wins and otherwise the reference is
unresolved.  From `a/b/c.ts`, `../d` searches from `a/d`, and `./utils`
resolves to `utils/index.ts` when `utils.ts` does not exist. -/
theorem C3_relative_resolution :
    relBase (lit "a/b/c.ts") (lit "../d") = lit "a/d" ∧
    relBase (lit "c.ts") (lit "../../x") = lit "x" ∧
    (∀ {H : Type} (m : FileMap H) (cur ref : Str) (lang : Option Str),
      ref.head? = some '.' → mapHas m (relBase cur ref) = true →
      resolveImportPath cur ref m lang = some (relBase cur ref)) ∧
    resolveImportPath (lit "main.ts") (lit "./utils") exMapIndexOnly
      (some (lit "ts")) = some (lit "utils/index.ts") ∧
    resolveImportPath (lit "main.ts") (lit "./utils") exMapBoth
      (some (lit "ts")) = some (lit "utils.ts") ∧
    resolveImportPath (lit "main.ts") (lit "./nope") ([] : FileMap Unit)
      (some (lit "ts")) = none := by
  refine ⟨by decide, by decide, ?_, by decide, by decide, by decide⟩
  intro H m cur ref lang h1 h2
  rw [resolveImportPath, if_pos h1, if_pos h2]

/-- Witness for C3: the general exact-match clause applied to a concrete
map containing `a/d`. -/
theorem C3_relative_resolution_witness :
    resolveImportPath (lit "a/b/c.ts") (lit "../d")
      ([(lit "a/d", .file (lit "d") (lit "a/d") none)] : FileMap Unit)
      (some (lit "ts")) = some (relBase (lit "a/b/c.ts") (lit "../d")) :=
  C3_relative_resolution.2.2.1 _ _ _ _ (by decide) (by decide)

/-- Counterexample to claim C5: under the Java language hint the resolver
does not use `<translated>/__init__.java` as a suffix candidate, so the
reference `a.b` fails to resolve against an index containing only
`src/a/b/__init__.java`, although the claim says both candidates are
tried for every dotted-module language. -/
theorem C5_java_counterexample :
    resolveImportPath (lit "Main.java") (lit "a.b") exMapJavaInit
      (some (lit "java")) = none ∧
    lit "a/b/__init__.java" ∉ potentialSuffixes (lit "a.b")
      (some (lit "java")) :=
  ⟨by decide, by decide⟩

/-- Claim C5 (amended): under the Python language hint the resolver
translates dots to path separators and uses both `<translated>.py` and
`<translated>/__init__.py` as suffix candidates; under the Java hint it
translates dots but uses only `<translated>.java`. -/
theorem C5_dotted_candidates_amended :
    (∀ importPath : Str,
      potentialSuffixes importPath (some (lit "py")) =
        [dotsToSlashes importPath ++ lit ".py",
         dotsToSlashes importPath ++ lit "/__init__.py"] ∧
      potentialSuffixes importPath (some (lit "java")) =
        [dotsToSlashes importPath ++ lit ".java"]) ∧
    resolveImportPath (lit "app.py") (lit "pkg.mod") exMapPyInit
      (some (lit "py")) = some (lit "src/pkg/mod/__init__.py") := by
  refine ⟨?_, by decide⟩
  intro importPath
  constructor
  · rw [potentialSuffixes, if_neg (by decide), if_pos rfl]
  · rw [potentialSuffixes, if_pos rfl]

/-- Claim C4: for every pattern match, the reference string is taken from
the later capture group when it is truthy (present and non-empty),
otherwise from the earlier group; a match whose selected capture is empty
or absent produces no edge.  For the two-group ASP include rule the path
in group 2 is preferred over the keyword in group 1. -/
theorem C4_capture_precedence :
    (∀ (g1 g2 : Option Str) (s : Str), chooseCapture ⟨g1, g2⟩ = some s →
      s ≠ [] ∧
      ((truthy g2 = true ∧ g2 = some s) ∨
       (truthy g2 = false ∧ g1 = some s))) ∧
    chooseCapture ⟨some (lit "file"), some (lit "header.asp")⟩ =
      some (lit "header.asp") ∧
    chooseCapture ⟨some [], none⟩ = none ∧
    chooseCapture ⟨none, some []⟩ = none ∧
    (∀ {H : Type} (fm : FileMap H) (src lang : Str) (m : RMatch),
      chooseCapture m = none → matchToDep fm src lang m = none) := by
  refine ⟨?_, by decide, by decide, by decide, ?_⟩
  · intro g1 g2 s h
    cases g2 with
    | none =>
      cases g1 with
      | none => simp [chooseCapture, truthy] at h
      | some t =>
        cases t with
        | nil => simp [chooseCapture, truthy] at h
        | cons c cs =>
          simp [chooseCapture, truthy] at h
          subst h
          exact ⟨by simp, Or.inr ⟨rfl, rfl⟩⟩
    | some t2 =>
      cases t2 with
      | nil =>
        cases g1 with
        | none => simp [chooseCapture, truthy] at h
        | some t =>
          cases t with
          | nil => simp [chooseCapture, truthy] at h
          | cons c cs =>
            simp [chooseCapture, truthy] at h
            subst h
            exact ⟨by simp, Or.inr ⟨rfl, rfl⟩⟩
      | cons c cs =>
        simp [chooseCapture, truthy] at h
        subst h
        exact ⟨by simp, Or.inl ⟨rfl, rfl⟩⟩
  · intro H fm src lang m h
    rw [matchToDep, h]

/-- Witness for C4: the capture-selection clause applied to a match whose
later group is absent and whose earlier group holds `x`. -/
theorem C4_capture_precedence_witness :
    lit "x" ≠ ([] : Str) ∧
    ((truthy none = true ∧ none = some (lit "x")) ∨
     (truthy none = false ∧ some (lit "x") = some (lit "x"))) :=
  C4_capture_precedence.1 (some (lit "x")) none (lit "x") (by decide)

/-- Claim C6: a read failure on one file is absorbed (the file contributes
no edges) and extraction still returns the edges of every other
processable file; concretely, with the middle of three files unreadable,
`parseFiles` returns exactly the edge of the first file. -/
theorem C6_read_error_absorbed :
    (∀ {H : Type} (contentOf : H → Except Str Str)
       (exec : Str → Str → List RMatch) (fm : FileMap H)
       (node : FileNode H) (e : Str),
      readFileContent contentOf node = .error e →
      parseOne contentOf exec fm node = []) ∧
    parseFiles cofC6 exeC6 filesC6 = [⟨lit "a.ts", lit "t.ts"⟩] := by
  refine ⟨?_, by decide⟩
  intro H contentOf exec fm node e h
  unfold parseOne
  cases hl : lookupLang (fileExt node.name) with
  | none => rfl
  | some lang => rw [h]

/-- Witness for C6: the error-absorption clause applied to the concrete
unreadable file of the scenario. -/
theorem C6_read_error_absorbed_witness :
    parseOne cofC6 exeC6 []
      (FileNode.file (lit "b.ts") (lit "b.ts") (some 2)) = [] :=
  C6_read_error_absorbed.1 cofC6 exeC6 []
    (FileNode.file (lit "b.ts") (lit "b.ts") (some 2)) (lit "boom") rfl

/-- Claim C7: every link of the assembled graph has both endpoints among
the graph's node ids; raw edges with unknown endpoints are dropped during
assembly rather than surfaced as errors. -/
theorem C7_no_dangling_links :
    ∀ {H : Type} (tree : List (FileNode H)) (deps : List FileDependency)
      (l : GraphLink), l ∈ (processGraph tree deps).links →
      l.source ∈ (processGraph tree deps).nodes.map (·.id) ∧
      l.target ∈ (processGraph tree deps).nodes.map (·.id) := by
  intro H tree deps l hl
  rw [processGraph_node_ids]
  rw [processGraph_links, validLinks] at hl
  rcases List.mem_map.mp hl with ⟨d, hd, rfl⟩
  rcases List.mem_filter.mp hd with ⟨-, hcond⟩
  simp only [Bool.and_eq_true, decide_eq_true_eq] at hcond
  exact ⟨hcond.1, hcond.2⟩

/-- Witness for C7: the no-dangling-edges property applied to a concrete
link of the duplicated-edges scenario graph. -/
theorem C7_no_dangling_links_witness :
    lit "src/a.ts" ∈ (processGraph treeDup depsDup).nodes.map (·.id) ∧
    lit "src/x.ts" ∈ (processGraph treeDup depsDup).nodes.map (·.id) :=
  C7_no_dangling_links treeDup depsDup
    ⟨lit "src/a.ts", lit "src/x.ts", 1⟩ (by decide)

/-- Claim C8: node display size is the monotone bounded function
`4 + min(20, degree × 1.5)` of the in-degree: any node with strictly
larger in-degree has size at least as large, and every size is at most
`24`. -/
theorem C8_size_monotone_bounded :
    ∀ {H : Type} (tree : List (FileNode H)) (deps : List FileDependency)
      (nA nB : GraphNode),
      nA ∈ (processGraph tree deps).nodes →
      nB ∈ (processGraph tree deps).nodes →
      nA.val = 4 + min 20 ((nA.degree : ℚ) * (3 / 2)) ∧
      nA.val ≤ 24 ∧
      (nA.degree > nB.degree → nA.val ≥ nB.val) := by
  intro H tree deps nA nB hA hB
  obtain ⟨hvalA, -⟩ := mem_processGraph_nodes hA
  obtain ⟨hvalB, -⟩ := mem_processGraph_nodes hB
  refine ⟨by rw [hvalA, nodeSize, ratMin_eq_min],
    hvalA ▸ nodeSize_le_24 nA.degree, ?_⟩
  intro hgt
  rw [hvalA, hvalB]
  exact nodeSize_mono (Nat.le_of_lt hgt)

/-- Witness for C8: the sizing property evaluated on the high-fan-in node
(degree 4) and a zero-degree node of the concrete dedup scenario. -/
theorem C8_size_monotone_bounded_witness :
    xDup.val = 4 + min 20 ((xDup.degree : ℚ) * (3 / 2)) ∧
    xDup.val ≤ 24 ∧ xDup.val ≥ aDup.val := by
  obtain ⟨h1, h2, h3⟩ := C8_size_monotone_bounded treeDup depsDup xDup aDup
    (List.mem_map.mpr ⟨xOrig, by decide, rfl⟩)
    (List.mem_map.mpr ⟨aOrig, by decide, rfl⟩)
  exact ⟨h1, h2, h3 (by decide)⟩

/-- Claim C9: whenever the resolver returns a path, that path is a key of
the file index it was given; hence every dependency edge produced by
extraction has a target that is an indexed file path of the scanned
tree. -/
theorem C9_resolved_target_indexed :
    (∀ {H : Type} (cur ref : Str) (m : FileMap H) (lang : Option Str)
       (p : Str), resolveImportPath cur ref m lang = some p →
       p ∈ mapKeys m) ∧
    (∀ {H : Type} (contentOf : H → Except Str Str)
       (exec : Str → Str → List RMatch) (files : List (FileNode H))
       (d : FileDependency), d ∈ parseFiles contentOf exec files →
       d.target ∈ mapKeys (buildFileMap files)) := by
  refine ⟨fun {H} => resolveImportPath_mem_keys, ?_⟩
  intro H contentOf exec files d hd
  rw [parseFiles] at hd
  rcases List.mem_flatMap.mp hd with ⟨n, -, hn⟩
  unfold parseOne at hn
  cases hl : lookupLang (fileExt n.name) with
  | none => rw [hl] at hn; exact absurd hn (by simp)
  | some lang =>
    rw [hl] at hn
    cases hr : readFileContent contentOf n with
    | error e => rw [hr] at hn; exact absurd hn (by simp)
    | ok content =>
      rw [hr] at hn
      rcases List.mem_filterMap.mp hn with ⟨rm, -, hmd⟩
      rw [matchToDep] at hmd
      cases hcc : chooseCapture rm with
      | none => simp [hcc] at hmd
      | some ip =>
        cases hres : resolveImportPath n.path ip (buildFileMap files)
            (some lang) with
        | none => simp [hcc, hres] at hmd
        | some r =>
          simp only [hcc, hres, Option.some_inj] at hmd
          rw [← hmd]
          exact resolveImportPath_mem_keys n.path ip (buildFileMap files)
            (some lang) r hres

/-- Witness for C9: the resolver clause applied to the directory-style
resolution of `./utils`, landing on the indexed key `utils/index.ts`. -/
theorem C9_resolved_target_indexed_witness :
    lit "utils/index.ts" ∈ mapKeys exMapIndexOnly :=
  C9_resolved_target_indexed.1 (lit "main.ts") (lit "./utils")
    exMapIndexOnly (some (lit "ts")) (lit "utils/index.ts") (by decide)

/-- Claim C10: a file node whose content handle is absent reads as the
empty string rather than raising an error, so (under any regex engine
that yields no match on empty content, as every catalogue pattern does)
extraction produces zero edges for that file and continues normally. -/
theorem C10_missing_handle_empty :
    ∀ {H : Type} (contentOf : H → Except Str Str)
      (exec : Str → Str → List RMatch) (fm : FileMap H) (nodeName nodePath : Str),
      readFileContent contentOf (FileNode.file nodeName nodePath none) =
        .ok [] ∧
      ((∀ lang, exec lang [] = []) →
        parseOne contentOf exec fm (FileNode.file nodeName nodePath none) = []) := by
  intro H contentOf exec fm nodeName nodePath
  refine ⟨rfl, ?_⟩
  intro hexec
  unfold parseOne
  cases hl : lookupLang (fileExt (FileNode.file nodeName nodePath none).name) with
  | none => rfl
  | some lang =>
    show ((exec lang []).filterMap _) = []
    rw [hexec lang]
    rfl

/-- Witness for C10: a handle-less `.ts` file under the empty regex
engine contributes no edges. -/
theorem C10_missing_handle_empty_witness :
    parseOne (fun _ : Unit => Except.ok []) (fun _ _ => [])
      ([] : FileMap Unit) (FileNode.file (lit "a.ts") (lit "a.ts") none) = [] :=
  (C10_missing_handle_empty (fun _ : Unit => Except.ok []) (fun _ _ => [])
    ([] : FileMap Unit) (lit "a.ts") (lit "a.ts")).2 (fun _ => rfl)

/-- Counterexample to claim C1: graph assembly does not deduplicate raw
edges — with two files each referencing `src/x.ts` twice (four raw
matches), the assembled link list keeps all four links, contains the
`src/a.ts → src/x.ts` link twice, and `src/x.ts` gets in-degree 4, where
the claim requires at most one link per distinct ordered pair and an
in-degree of at most 2. -/
theorem C1_dedup_counterexample :
    (processGraph treeDup depsDup).links.count
      ⟨lit "src/a.ts", lit "src/x.ts", 1⟩ = 2 ∧
    (processGraph treeDup depsDup).nodes.map (fun n => (n.id, n.degree)) =
      [(lit "src/a.ts", 0), (lit "src/b.ts", 0), (lit "src/x.ts", 4)] ∧
    (processGraph treeDup depsDup).links.length = 4 := by
  refine ⟨by decide, by decide, by decide⟩

/-- Claim C1 (amended): graph assembly performs no deduplication — every
raw dependency edge whose endpoints are known node ids becomes its own
link (so the link list's length is the number of surviving raw edges,
duplicates included), and each node's in-degree counts every surviving
raw edge pointing at it, duplicates included. -/
theorem C1_no_dedup_amended :
    ∀ {H : Type} (tree : List (FileNode H)) (deps : List FileDependency),
      (processGraph tree deps).links.length =
        (deps.filter (fun d =>
          decide (d.source ∈ (treeToGraphData tree).map (·.id)) &&
          decide (d.target ∈ (treeToGraphData tree).map (·.id)))).length ∧
      ∀ n ∈ (processGraph tree deps).nodes,
        n.degree =
          ((processGraph tree deps).links.filter
            (fun l => l.target = n.id)).length := by
  intro H tree deps
  constructor
  · rw [processGraph_links, validLinks, List.length_map]
  · intro n hn
    obtain ⟨-, hdeg⟩ := mem_processGraph_nodes hn
    rw [hdeg, degreeLookup_inDegreeMap]

/-- Witness for C1 (amended): in the four-raw-matches scenario the node
`src/x.ts` has in-degree 4, the number of surviving raw edges that point
at it. -/
theorem C1_no_dedup_amended_witness :
    xDup.degree =
      ((processGraph treeDup depsDup).links.filter
        (fun l => l.target = xDup.id)).length :=
  (C1_no_dedup_amended treeDup depsDup).2 xDup
    (List.mem_map.mpr ⟨xOrig, by decide, rfl⟩)

end CodeNebula
